import Mathlib

/-!
Verification of the Hopper network classification and graph engine
(`src/hopper.py`, class `Hopper`) against its specification.

The Python data structures are shallowly embedded:

* Python `dict` / `defaultdict` values become insertion-ordered association
  lists `List (String × α)`; lookup takes the first (unique) binding.
* `defaultdict(set)` neighbor sets become duplicate-free `List String` in
  insertion order.  Python iterates a `set` in an unspecified order; the
  embedding fixes insertion order, which is one admissible order, and no
  property proved here depends on the particular order.
* `str.strip` and `str.split("-")` are modelled directly on character lists
  (`pyStripL`, `splitChar`), following Python's documented semantics.
* the stdlib call `ipaddress.IPv4Network(f"{ip}/{mask}", strict=False)`
  (external library, not repository code) is abstracted as an oracle
  `parse : String → Option String` returning `str(net)` on success and
  `none` when `ValueError` is raised; the mask is captured by the oracle.
* the BFS `while queue:` loop of `find_path` becomes a fuelled recursion
  `bfsRun`; `bfs_fuel_sufficient` proves the fuel bound is never exhausted,
  so `find_path` below computes exactly the loop's result.
-/

namespace Hopper

/-- Python `dict` lookup on an insertion-ordered association list
(first binding wins; keys are unique by construction). -/
def alookup {α : Type} : List (String × α) → String → Option α
  | [], _ => none
  | p :: rest, x => if p.1 = x then some p.2 else alookup rest x

/-- `self.graph` : `defaultdict(set)` mapping an address to its neighbor set
(`src/hopper.py` line 20).  Keys in insertion order, neighbor sets as
duplicate-free lists in insertion order. -/
abbrev GraphT := List (String × List String)

/-- The neighbor set of `x`, empty when `x` is not a key
(read-only view; the mutating `defaultdict` read is `getAdjD`). -/
def adjOf (g : GraphT) (x : String) : List String := (alookup g x).getD []

/-- `self.graph[a].add b` : the `defaultdict` creates the entry `a ↦ ∅` if
missing (appended at the end of the key order), then `set.add` inserts `b`
if not already present. -/
def addNbr : GraphT → String → String → GraphT
  | [], a, b => [(a, [b])]
  | p :: rest, a, b =>
    if p.1 = a then (p.1, if b ∈ p.2 then p.2 else p.2 ++ [b]) :: rest
    else p :: addNbr rest a b

/-- The two adds of `load_edges` (`src/hopper.py` lines 63-64):
`self.graph[ip1].add(ip2); self.graph[ip2].add(ip1)`. -/
def addEdgePair (g : GraphT) (a b : String) : GraphT := addNbr (addNbr g a b) b a

/-- The whitespace characters stripped by Python `str.strip()`:
space, tab, newline, carriage return, vertical tab, form feed. -/
def pyWs (c : Char) : Bool :=
  c == ' ' || c == '\t' || c == '\n' || c == '\r' || c == '\x0b' || c == '\x0c'

/-- Python `str.strip()` on a character list: drop leading and trailing
whitespace. -/
def pyStripL (l : List Char) : List Char :=
  ((l.dropWhile pyWs).reverse.dropWhile pyWs).reverse

/-- Python `str.strip()`. -/
def pyStrip (s : String) : String := (pyStripL s.toList).asString

/-- Python `str.split(sep)` for a one-character separator: split at every
occurrence, keeping empty parts (`"".split("-") = [""]`,
`"-".split("-") = ["", ""]`). -/
def splitChar (sep : Char) : List Char → List (List Char)
  | [] => [[]]
  | c :: rest =>
    if c = sep then [] :: splitChar sep rest
    else
      match splitChar sep rest with
      | [] => [[c]]
      | h :: t => (c :: h) :: t

/-- One line of `load_edges` (`src/hopper.py` lines 56-64):
skip the line unless `"-" in line`; split `line.strip()` on `"-"`; skip
unless exactly two parts; strip each part and add the edge both ways. -/
def procEdgeLine (g : GraphT) (line : String) : GraphT :=
  if '-' ∈ line.toList then
    match splitChar '-' (pyStripL line.toList) with
    | [t1, t2] => addEdgePair g (pyStripL t1).asString (pyStripL t2).asString
    | _ => g
  else g

/-- The edge-loading loop of `load_edges` over the lines of the edge file. -/
def loadEdgesGraph (g : GraphT) (lines : List String) : GraphT :=
  lines.foldl procEdgeLine g

/-- `self.ip_to_network` : a plain `dict`; assignment overwrites in place,
new keys are appended. -/
def dset : List (String × String) → String → String → List (String × String)
  | [], k, v => [(k, v)]
  | p :: rest, k, v => if p.1 = k then (k, v) :: rest else p :: dset rest k v

/-- `self.network_map[net].append(ip)` : `defaultdict(list)` entry creation
plus `list.append`. -/
def dappend : List (String × List String) → String → String → List (String × List String)
  | [], k, v => [(k, [v])]
  | p :: rest, k, v => if p.1 = k then (p.1, p.2 ++ [v]) :: rest else p :: dappend rest k v

/-- The classifier state built by `load_ips`:
`network_map : net ↦ member list` and `ip_to_network : ip ↦ net`. -/
structure ClassState where
  network_map : List (String × List String)
  ip_to_network : List (String × String)

/-- One line of the `load_ips` loop (`src/hopper.py` lines 29-39):
strip; skip blank lines; `parse` abstracts
`str(ipaddress.IPv4Network(f"{ip}/{mask}", strict=False))`, `none` meaning
`ValueError` (the line is reported and skipped); on success append the
address to its network's member list and record the reverse mapping. -/
def loadIpsLine (parse : String → Option String) (st : ClassState) (line : String) :
    ClassState :=
  let ip := pyStrip line
  if ip = "" then st
  else
    match parse ip with
    | none => st
    | some net =>
      { network_map := dappend st.network_map net ip,
        ip_to_network := dset st.ip_to_network ip net }

/-- The `load_ips` loop over the lines of the IP file. -/
def loadIps (parse : String → Option String) (st : ClassState) (lines : List String) :
    ClassState :=
  lines.foldl (loadIpsLine parse) st

/-- Member list of network `n` (`self.network_map[n]`, empty if absent). -/
def membersOf (st : ClassState) (n : String) : List String :=
  (alookup st.network_map n).getD []

/-- Label generation of `load_ips` (`src/hopper.py` lines 41-43):
`for idx, network in enumerate(sorted(self.network_map.keys())):`
`  self.network_labels[network] = f"Network {chr(ord('A') + idx)}"`.
Python `sorted` on strings is the lexicographic (code point) order, which is
the `LinearOrder String` order. -/
def computeLabels (nets : List String) : List (String × String) :=
  (List.insertionSort (· ≤ ·) nets).enum.map
    (fun p => (p.2, "Network " ++ (Char.ofNat (65 + p.1)).toString))

/-- The key list of `network_map` (`self.network_map.keys()`). -/
def netKeys (st : ClassState) : List String := st.network_map.map Prod.fst

/-- Body of the inner loop of the inter-network adjacency build
(`src/hopper.py` lines 71-75): `net2 = self.ip_to_network.get(ip2)`;
`if net2 and net2 != net1:` (Python truthiness: `None` and the empty
string are both falsy) add `net2` to `connected_networks[net1]` and
`net1` to `connected_networks[net2]`. -/
def connInner (reg : List (String × String)) (net1 : String)
    (acc2 : List (String × List String)) (ip2 : String) :
    List (String × List String) :=
  match alookup reg ip2 with
  | none => acc2
  | some net2 =>
    if net2 = "" then acc2
    else if net2 = net1 then acc2
    else addNbr (addNbr acc2 net1 net2) net2 net1

/-- Body of the outer loop of the build (`src/hopper.py` lines 67-75):
`net1 = self.ip_to_network.get(ip1)`; `if not net1: continue`; then the
inner loop over the neighbors. -/
def connOuter (reg : List (String × String)) (acc : List (String × List String))
    (e : String × List String) : List (String × List String) :=
  match alookup reg e.1 with
  | none => acc
  | some net1 => if net1 = "" then acc else e.2.foldl (connInner reg net1) acc

/-- The inter-network adjacency build of `load_edges`
(`src/hopper.py` lines 66-75): the outer loop over all graph items,
starting from the empty `connected_networks`. -/
def buildConnected (reg : List (String × String)) (g : GraphT) :
    List (String × List String) :=
  g.foldl (connOuter reg) []

/-- The `defaultdict` read `self.graph[node]` inside `find_path`
(`src/hopper.py` line 99): returns the neighbor set AND the possibly grown
graph — reading a missing key inserts it with an empty set. -/
def getAdjD (g : GraphT) (x : String) : List String × GraphT :=
  match alookup g x with
  | some ns => (ns, g)
  | none => ([], g ++ [(x, [])])

/-- The `while queue:` BFS loop of `find_path` (`src/hopper.py` lines 85-104),
as a fuelled recursion.  State: current graph (it can grow, line 99 reads
`self.graph[node]` on a `defaultdict`), `visited`, and the queue of paths.
`none` means the fuel ran out (never happens, see `bfs_fuel_sufficient`);
`some (r, g)` is the returned value (`some path` / `None`) and final graph. -/
def bfsRun (dst : String) :
    Nat → GraphT → List String → List (List String) →
    Option (Option (List String) × GraphT)
  | 0, _, _, _ => none
  | fuel + 1, g, visited, queue =>
    match queue with
    | [] => some (none, g)
    | path :: rest =>
      let node := path.getLast?.getD ""
      if node = dst then some (some path, g)
      else if node ∈ visited then bfsRun dst fuel g visited rest
      else
        let pr := getAdjD g node
        let visited2 := node :: visited
        bfsRun dst fuel pr.2 visited2
          (rest ++ (pr.1.filter (fun nb => !(decide (nb ∈ visited2)))).map
            (fun nb => path ++ [nb]))

/-- Total size of all neighbor sets. -/
def sumAdj (g : GraphT) : Nat := (g.map (fun p => p.2.length)).sum

/-- A fuel bound sufficient for `bfsRun` to drain its queue
(proved in `bfs_fuel_sufficient`). -/
def bfsFuel (g : GraphT) : Nat := sumAdj g + 2

/-- `find_path(src, dst)` (`src/hopper.py` lines 83-104): run the BFS from
`queue = deque([[src]])`, `visited = set()`; returns the found path or
`None`, together with the final graph (the `defaultdict` reads of line 99
can insert fresh keys — see `find_path_frame_effect`). -/
def find_path (g : GraphT) (src dst : String) : Option (List String) × GraphT :=
  match bfsRun dst (bfsFuel g) g [] [[src]] with
  | some r => r
  | none => (none, g)

/-- `list(self.graph.keys())` : the `"nodes"` list of `export_json`
(`src/hopper.py` line 118). -/
def exportNodes (g : GraphT) : List String := g.map Prod.fst

/-- `p` is a chain in `g`: every consecutive pair `(a, b)` satisfies
`b ∈ adjOf g a`. -/
def chainB (g : GraphT) : List String → Bool
  | [] => true
  | [_] => true
  | a :: b :: rest => decide (b ∈ adjOf g a) && chainB g (b :: rest)

/-- `p` is a path in `g` from `a` to `b`: a chain starting at `a` and
ending at `b`. -/
def pathB (g : GraphT) (a b : String) (p : List String) : Prop :=
  chainB g p = true ∧ p.head? = some a ∧ p.getLast? = some b

instance (g : GraphT) (a b : String) (p : List String) : Decidable (pathB g a b p) :=
  inferInstanceAs (Decidable (chainB g p = true ∧ p.head? = some a ∧ p.getLast? = some b))

/-- `b` is reachable from `a` in `g` (reflexively: `[a]` witnesses
`reach g a a`). -/
def reach (g : GraphT) (a b : String) : Prop := ∃ p, pathB g a b p

/-- `n` is the graph-theoretic shortest distance (edge count) from `a` to
`b` in `g`: some path has `n` edges and no path has fewer. -/
def isDist (g : GraphT) (a b : String) (n : Nat) : Prop :=
  (∃ p, pathB g a b p ∧ p.length = n + 1) ∧ ∀ q, pathB g a b q → n + 1 ≤ q.length

/-! ## Association-list lemmas -/

theorem alookup_addNbr (g : GraphT) (a b x : String) :
    alookup (addNbr g a b) x =
      if x = a then some (if b ∈ adjOf g a then adjOf g a else adjOf g a ++ [b])
      else alookup g x := by
  induction g with
  | nil =>
    by_cases h : x = a
    · subst h
      simp [addNbr, alookup, adjOf]
    · have h2 : ¬a = x := fun h2 => h h2.symm
      simp [addNbr, alookup, h, h2]
  | cons p rest ih =>
    obtain ⟨k, v⟩ := p
    simp only [addNbr]
    by_cases hk : k = a
    · subst hk
      rw [if_pos rfl]
      have hv : adjOf ((k, v) :: rest) k = v := by simp [adjOf, alookup]
      by_cases hx : x = k
      · subst hx
        simp [alookup, hv]
      · have h2 : ¬k = x := fun h2 => hx h2.symm
        simp only [alookup, if_neg h2, if_neg hx]
    · rw [if_neg hk]
      have hadj : adjOf ((k, v) :: rest) a = adjOf rest a := by
        simp [adjOf, alookup, hk]
      by_cases hx : k = x
      · subst hx
        have hxa : ¬k = a := hk
        simp [alookup, hxa]
      · simp only [alookup, if_neg hx, ih, hadj]

theorem adjOf_addNbr (g : GraphT) (a b x : String) :
    adjOf (addNbr g a b) x =
      if x = a then (if b ∈ adjOf g a then adjOf g a else adjOf g a ++ [b])
      else adjOf g x := by
  simp only [adjOf, alookup_addNbr]
  by_cases h : x = a <;> simp [h]

theorem mem_adjOf_addNbr {g : GraphT} {a b x y : String} :
    y ∈ adjOf (addNbr g a b) x ↔ (x = a ∧ y = b) ∨ y ∈ adjOf g x := by
  rw [adjOf_addNbr]
  by_cases h : x = a
  · subst h
    rw [if_pos rfl]
    by_cases hb : b ∈ adjOf g x
    · rw [if_pos hb]
      simp only [eq_self_iff_true, true_and]
      constructor
      · exact Or.inr
      · rintro (rfl | hy)
        · exact hb
        · exact hy
    · rw [if_neg hb]
      simp only [List.mem_append, List.mem_singleton, eq_self_iff_true, true_and]
      exact or_comm
  · rw [if_neg h]
    simp [h]

theorem mem_adjOf_addEdgePair {g : GraphT} {a b x y : String} :
    y ∈ adjOf (addEdgePair g a b) x ↔
      (x = a ∧ y = b) ∨ (x = b ∧ y = a) ∨ y ∈ adjOf g x := by
  simp only [addEdgePair, mem_adjOf_addNbr]
  tauto

theorem addNbr_of_mem {g : GraphT} {a b : String} (h : b ∈ adjOf g a) :
    addNbr g a b = g := by
  induction g with
  | nil => simp [adjOf, alookup] at h
  | cons p rest ih =>
    obtain ⟨k, v⟩ := p
    simp only [addNbr]
    by_cases hk : k = a
    · subst hk
      have hv : adjOf ((k, v) :: rest) k = v := by simp [adjOf, alookup]
      rw [hv] at h
      simp [h]
    · have : adjOf ((k, v) :: rest) a = adjOf rest a := by simp [adjOf, alookup, hk]
      rw [this] at h
      simp [hk, ih h]

theorem addEdgePair_of_mem {g : GraphT} {a b : String}
    (h1 : b ∈ adjOf g a) (h2 : a ∈ adjOf g b) :
    addEdgePair g a b = g := by
  simp only [addEdgePair, addNbr_of_mem h1, addNbr_of_mem h2]

/-- Symmetry of an adjacency structure. -/
def SymmG (g : GraphT) : Prop := ∀ a b, b ∈ adjOf g a → a ∈ adjOf g b

theorem symmG_addEdgePair {g : GraphT} (h : SymmG g) (a b : String) :
    SymmG (addEdgePair g a b) := by
  intro x y hy
  rw [mem_adjOf_addEdgePair] at hy ⊢
  rcases hy with ⟨rfl, rfl⟩ | ⟨rfl, rfl⟩ | hy
  · exact Or.inr (Or.inl ⟨rfl, rfl⟩)
  · exact Or.inl ⟨rfl, rfl⟩
  · exact Or.inr (Or.inr (h x y hy))

/-- Every edge-loading line either leaves the graph unchanged or adds the
edge between the two stripped tokens of its two-way split. -/
theorem procEdgeLine_eq (g : GraphT) (line : String) :
    procEdgeLine g line = g ∨
    ∃ t1 t2, splitChar '-' (pyStripL line.toList) = [t1, t2] ∧
      procEdgeLine g line = addEdgePair g (pyStripL t1).asString (pyStripL t2).asString := by
  unfold procEdgeLine
  by_cases hd : '-' ∈ line.toList
  · rw [if_pos hd]
    cases hsp : splitChar '-' (pyStripL line.toList) with
    | nil => exact Or.inl rfl
    | cons t1 ts =>
      cases ts with
      | nil => exact Or.inl rfl
      | cons t2 ts2 =>
        cases ts2 with
        | nil => exact Or.inr ⟨t1, t2, rfl, rfl⟩
        | cons u us => exact Or.inl rfl
  · rw [if_neg hd]
    exact Or.inl rfl

theorem symmG_procEdgeLine {g : GraphT} (h : SymmG g) (line : String) :
    SymmG (procEdgeLine g line) := by
  rcases procEdgeLine_eq g line with he | ⟨t1, t2, -, he⟩ <;> rw [he]
  · exact h
  · exact symmG_addEdgePair h _ _

theorem symmG_loadEdgesGraph {g : GraphT} (h : SymmG g) (lines : List String) :
    SymmG (loadEdgesGraph g lines) := by
  induction lines generalizing g with
  | nil => exact h
  | cons l ls ih => exact ih (symmG_procEdgeLine h l)

theorem mem_adjOf_procEdgeLine {g : GraphT} {x y : String} (line : String)
    (h : y ∈ adjOf g x) : y ∈ adjOf (procEdgeLine g line) x := by
  rcases procEdgeLine_eq g line with he | ⟨t1, t2, -, he⟩ <;> rw [he]
  · exact h
  · exact mem_adjOf_addEdgePair.mpr (Or.inr (Or.inr h))

theorem mem_adjOf_loadEdgesGraph {g : GraphT} {x y : String} (lines : List String)
    (h : y ∈ adjOf g x) : y ∈ adjOf (loadEdgesGraph g lines) x := by
  induction lines generalizing g with
  | nil => exact h
  | cons l ls ih => exact ih (mem_adjOf_procEdgeLine l h)

/-! ## Split and strip lemmas -/

theorem splitChar_ne_nil (sep : Char) (l : List Char) : splitChar sep l ≠ [] := by
  cases l with
  | nil => simp [splitChar]
  | cons c rest =>
    simp only [splitChar]
    by_cases h : c = sep
    · simp [h]
    · rw [if_neg h]
      cases splitChar sep rest <;> simp

theorem length_splitChar (sep : Char) (l : List Char) :
    (splitChar sep l).length = l.count sep + 1 := by
  induction l with
  | nil => simp [splitChar]
  | cons c rest ih =>
    simp only [splitChar]
    by_cases h : c = sep
    · subst h
      simp [List.count_cons, ih]
    · rw [if_neg h]
      cases hr : splitChar sep rest with
      | nil => exact absurd hr (splitChar_ne_nil sep rest)
      | cons hh tt =>
        rw [hr] at ih
        simp only [List.length_cons] at ih ⊢
        simp [List.count_cons, h]
        omega

theorem mem_pyStripL {c : Char} {l : List Char} (h : c ∈ pyStripL l) : c ∈ l := by
  unfold pyStripL at h
  rw [List.mem_reverse] at h
  have h2 := (List.dropWhile_sublist pyWs).subset h
  rw [List.mem_reverse] at h2
  exact (List.dropWhile_sublist pyWs).subset h2

/-! ## Claims C3, C5, C7, C10 -/

/-- C3, counterexample: the line `"a-"` contains the single separator `-`
but its second trimmed token is empty, so the claim says it is dropped and
the graph left unchanged; the code (which never checks the tokens for
emptiness, `src/hopper.py` lines 56-64) adds the edge `("a", "")`. -/
theorem load_edges_line_counterexample :
    splitChar '-' (pyStripL ("a-").toList) = [['a'], []] ∧
    (pyStripL ([] : List Char)).asString = "" ∧
    procEdgeLine [] "a-" = [("a", [""]), ("", ["a"])] := by
  refine ⟨by decide, by decide, by decide⟩

/-- C3 (amended): an input line handed to edge loading is dropped (graph
unchanged, no error) unless it contains the separator `-` and the stripped
line splits on `-` into exactly two tokens; every line with exactly two
tokens adds the edge between the two stripped tokens, even when a token is
empty. -/
theorem load_edges_line_amended (g : GraphT) (line : String) :
    procEdgeLine g line =
      match splitChar '-' (pyStripL line.toList) with
      | [t1, t2] => addEdgePair g (pyStripL t1).asString (pyStripL t2).asString
      | _ => g := by
  unfold procEdgeLine
  by_cases hd : '-' ∈ line.toList
  · rw [if_pos hd]
  · rw [if_neg hd]
    have hstrip : (pyStripL line.toList).count '-' = 0 := by
      rw [List.count_eq_zero]
      intro hmem
      exact hd (mem_pyStripL hmem)
    have hlen := length_splitChar '-' (pyStripL line.toList)
    rw [hstrip] at hlen
    cases hsp : splitChar '-' (pyStripL line.toList) with
    | nil => exact absurd hsp (splitChar_ne_nil _ _)
    | cons t ts =>
      rw [hsp] at hlen
      simp only [List.length_cons] at hlen
      cases ts with
      | nil => rfl
      | cons t2 ts2 => simp at hlen

/-- C5: graph adjacency after any sequence of edge-line insertions is
symmetric; each inserted edge `(a, b)` puts `b` into `neighbors a` and `a`
into `neighbors b`, memberships persist under further insertions, and
re-inserting a present edge leaves the graph unchanged (idempotence). -/
theorem graph_symmetric_idempotent :
    (∀ lines a b,
      b ∈ adjOf (loadEdgesGraph [] lines) a ↔ a ∈ adjOf (loadEdgesGraph [] lines) b) ∧
    (∀ g a b, b ∈ adjOf (addEdgePair g a b) a ∧ a ∈ adjOf (addEdgePair g a b) b) ∧
    (∀ (g : GraphT) lines a b, b ∈ adjOf g a → b ∈ adjOf (loadEdgesGraph g lines) a) ∧
    (∀ g a b, addEdgePair (addEdgePair g a b) a b = addEdgePair g a b) := by
  refine ⟨?_, ?_, ?_, ?_⟩
  · intro lines a b
    have hs : SymmG (loadEdgesGraph [] lines) :=
      symmG_loadEdgesGraph (by intro a b h; simp [adjOf, alookup] at h) lines
    exact ⟨hs a b, hs b a⟩
  · intro g a b
    exact ⟨mem_adjOf_addEdgePair.mpr (Or.inl ⟨rfl, rfl⟩),
           mem_adjOf_addEdgePair.mpr (Or.inr (Or.inl ⟨rfl, rfl⟩))⟩
  · intro g lines a b h
    exact mem_adjOf_loadEdgesGraph lines h
  · intro g a b
    exact addEdgePair_of_mem (mem_adjOf_addEdgePair.mpr (Or.inl ⟨rfl, rfl⟩))
      (mem_adjOf_addEdgePair.mpr (Or.inr (Or.inl ⟨rfl, rfl⟩)))

/-- Witness for `graph_symmetric_idempotent` at concrete inputs
(discharging the persistence conjunct's hypothesis). -/
theorem graph_symmetric_idempotent_witness :
    "b" ∈ adjOf ([("a", ["b"]), ("b", ["a"])] : GraphT) "a" ∧
    "b" ∈ adjOf (loadEdgesGraph [("a", ["b"]), ("b", ["a"])] ["b-c"]) "a" :=
  ⟨by decide,
    graph_symmetric_idempotent.2.2.1 [("a", ["b"]), ("b", ["a"])] ["b-c"] "a" "b" (by decide)⟩

/-- C7: for every graph state and every address `src`,
`find_path(src, src)` returns the single-element path `[src]` and leaves
the graph untouched, including when `src` was never classified and has no
recorded neighbors. -/
theorem find_path_refl (g : GraphT) (src : String) :
    find_path g src src = (some [src], g) := by
  simp [find_path, bfsFuel, bfsRun]

/-- C10: `find_path` is not read-only: querying from an address `x` that is
not a key of the graph, with `x ≠ dst`, inserts `x` as a node with an empty
neighbor set (the `defaultdict` read of `src/hopper.py` line 99), so the
`"nodes"` list exported by `export_json` afterwards grows by `x`. -/
theorem find_path_frame_effect (g : GraphT) (x dst : String)
    (hx : alookup g x = none) (hne : x ≠ dst) :
    find_path g x dst = (none, g ++ [(x, [])]) ∧
    exportNodes (g ++ [(x, [])]) = exportNodes g ++ [x] := by
  constructor
  · simp [find_path, bfsFuel, bfsRun, getAdjD, hx, hne]
  · simp [exportNodes]

/-! ## Claim C6: classification -/

theorem alookup_dappend (m : List (String × List String)) (k v x : String) :
    alookup (dappend m k v) x =
      if x = k then some ((alookup m k).getD [] ++ [v]) else alookup m x := by
  induction m with
  | nil =>
    by_cases h : x = k
    · subst h; simp [dappend, alookup]
    · have h2 : ¬k = x := fun h2 => h h2.symm
      simp [dappend, alookup, h, h2]
  | cons p rest ih =>
    obtain ⟨kk, vv⟩ := p
    simp only [dappend]
    by_cases hk : kk = k
    · subst hk
      rw [if_pos rfl]
      by_cases hx : x = kk
      · subst hx; simp [alookup]
      · have h2 : ¬kk = x := fun h2 => hx h2.symm
        simp [alookup, h2, hx]
    · rw [if_neg hk]
      by_cases hx : kk = x
      · subst hx
        have h2 : ¬kk = k := hk
        simp [alookup, h2]
      · simp only [alookup, if_neg hx, ih, if_neg hk]

theorem membersOf_loadIpsLine (parse : String → Option String) (st : ClassState)
    (line : String) (n : String) :
    membersOf (loadIpsLine parse st line) n =
      membersOf st n ++
        (if pyStrip line != "" && parse (pyStrip line) == some n
         then [pyStrip line] else []) := by
  unfold loadIpsLine
  by_cases hb : pyStrip line = ""
  · simp [hb, membersOf]
  · rw [if_neg hb]
    cases hp : parse (pyStrip line) with
    | none => simp [membersOf, hb, hp]
    | some net =>
      by_cases hn : net = n
      · subst hn
        simp [membersOf, alookup_dappend, hb, hp]
      · have h2 : ¬n = net := fun h2 => hn h2.symm
        simp [membersOf, alookup_dappend, hb, hp, hn, h2]

/-- C6: for every sequence of input lines and every parse oracle (i.e.
every mask), classification strips each line, silently skips blank lines,
skips unparsable lines without aborting the batch, and appends every valid
occurrence (duplicates included) to the member list of its computed
network, in first-seen order: the final member list of network `n` is the
previous one followed by the stripped lines that parse to `n`, in input
order. -/
theorem load_ips_members (parse : String → Option String) (st : ClassState)
    (lines : List String) (n : String) :
    membersOf (loadIps parse st lines) n =
      membersOf st n ++
        (lines.map pyStrip).filter (fun ip => ip != "" && parse ip == some n) := by
  induction lines generalizing st with
  | nil => simp [loadIps, membersOf]
  | cons l ls ih =>
    have hstep : loadIps parse st (l :: ls) = loadIps parse (loadIpsLine parse st l) ls := rfl
    rw [hstep, ih, membersOf_loadIpsLine]
    by_cases hq : (pyStrip l != "" && parse (pyStrip l) == some n) = true
    · simp [List.filter_cons, hq]
    · simp [List.filter_cons, hq]

/-! ## Claim C8: label determinism -/

theorem computeLabels_set_det (l1 l2 : List String)
    (h1 : l1.Nodup) (h2 : l2.Nodup) (hm : ∀ n, n ∈ l1 ↔ n ∈ l2) :
    computeLabels l1 = computeLabels l2 := by
  unfold computeLabels
  have hp : l1.Perm l2 := (List.perm_ext_iff_of_nodup h1 h2).mpr hm
  have hperm : (List.insertionSort (· ≤ ·) l1).Perm (List.insertionSort (· ≤ ·) l2) :=
    ((List.perm_insertionSort _ l1).trans hp).trans (List.perm_insertionSort _ l2).symm
  rw [List.eq_of_perm_of_sorted hperm (List.sorted_insertionSort _ l1)
    (List.sorted_insertionSort _ l2)]

theorem alookup_none_iff {α : Type} (m : List (String × α)) (x : String) :
    alookup m x = none ↔ x ∉ m.map Prod.fst := by
  induction m with
  | nil => simp [alookup]
  | cons p rest ih =>
    obtain ⟨k, v⟩ := p
    by_cases h : k = x
    · subst h; simp [alookup]
    · have h2 : ¬x = k := fun h2 => h h2.symm
      simp [alookup, h, ih, h2]

theorem keys_dappend (m : List (String × List String)) (k v : String) :
    (dappend m k v).map Prod.fst =
      if k ∈ m.map Prod.fst then m.map Prod.fst else m.map Prod.fst ++ [k] := by
  induction m with
  | nil => simp [dappend]
  | cons p rest ih =>
    obtain ⟨kk, vv⟩ := p
    by_cases hk : kk = k
    · subst hk; simp [dappend]
    · have hk2 : ¬k = kk := fun h => hk h.symm
      simp only [dappend, if_neg hk, List.map_cons, ih, List.mem_cons]
      by_cases hmem : k ∈ rest.map Prod.fst
      · simp [hmem, hk2]
      · simp [hmem, hk2]

theorem netKeys_dappend_nodup {m : List (String × List String)} (k v : String)
    (h : (m.map Prod.fst).Nodup) : ((dappend m k v).map Prod.fst).Nodup := by
  rw [keys_dappend]
  by_cases hmem : k ∈ m.map Prod.fst
  · simpa [hmem] using h
  · simp [hmem, h, List.nodup_append]

theorem netKeys_loadIps_nodup (parse : String → Option String) (st : ClassState)
    (lines : List String) (h : (netKeys st).Nodup) :
    (netKeys (loadIps parse st lines)).Nodup := by
  induction lines generalizing st with
  | nil => exact h
  | cons l ls ih =>
    have hstep : loadIps parse st (l :: ls) = loadIps parse (loadIpsLine parse st l) ls := rfl
    rw [hstep]
    apply ih
    unfold loadIpsLine
    by_cases hb : pyStrip l = ""
    · simpa [hb] using h
    · rw [if_neg hb]
      cases parse (pyStrip l) with
      | none => exact h
      | some net => exact netKeys_dappend_nodup net (pyStrip l) h

/-- C8: network display labels are a pure function of the set of discovered
networks: whenever two classifier runs (any inputs, any masks) discover the
same set of networks, sorting the keys ascending and assigning
`Network A, Network B, …` by rank yields identical label tables, so
rebuilding the registry from the same input reproduces identical letter
assignments. -/
theorem labels_determined_by_network_set (parse1 parse2 : String → Option String)
    (lines1 lines2 : List String)
    (hm : ∀ n, n ∈ netKeys (loadIps parse1 ⟨[], []⟩ lines1) ↔
               n ∈ netKeys (loadIps parse2 ⟨[], []⟩ lines2)) :
    computeLabels (netKeys (loadIps parse1 ⟨[], []⟩ lines1)) =
    computeLabels (netKeys (loadIps parse2 ⟨[], []⟩ lines2)) :=
  computeLabels_set_det _ _
    (netKeys_loadIps_nodup parse1 ⟨[], []⟩ lines1 (by simp [netKeys]))
    (netKeys_loadIps_nodup parse2 ⟨[], []⟩ lines2 (by simp [netKeys]))
    hm

/-- Witness for `labels_determined_by_network_set`: two loads discovering
the networks in different orders, with a duplicate, get the same labels. -/
theorem labels_determined_witness :
    computeLabels (netKeys (loadIps some ⟨[], []⟩ ["b", "a"])) =
    computeLabels (netKeys (loadIps some ⟨[], []⟩ ["a", "b", "a"])) := by
  apply labels_determined_by_network_set
  intro n
  have e1 : netKeys (loadIps some ⟨[], []⟩ ["b", "a"]) = ["b", "a"] := by rfl
  have e2 : netKeys (loadIps some ⟨[], []⟩ ["a", "b", "a"]) = ["a", "b"] := by rfl
  rw [e1, e2]
  simp [or_comm]

/-! ## Claim C4: inter-network adjacency -/

theorem foldl_invariant {α β : Type} (f : β → α → β) (P : β → Prop) :
    ∀ (l : List α) (init : β), P init →
      (∀ acc a, a ∈ l → P acc → P (f acc a)) → P (l.foldl f init)
  | [], _, h0, _ => h0
  | x :: xs, init, h0, hstep =>
    foldl_invariant f P xs (f init x) (hstep init x (List.mem_cons_self x xs) h0)
      (fun acc a ha hp => hstep acc a (List.mem_cons_of_mem x ha) hp)

theorem foldl_establish {α β : Type} (f : β → α → β) (P : β → Prop) (e : α) :
    ∀ (l : List α) (init : β), e ∈ l →
      (∀ acc a, a ∈ l → P acc → P (f acc a)) →
      (∀ acc, P (f acc e)) → P (l.foldl f init)
  | [], _, he, _, _ => absurd he (List.not_mem_nil e)
  | x :: xs, init, he, hmono, hest => by
    rcases List.mem_cons.mp he with h | h
    · subst h
      exact foldl_invariant f P xs (f init e) (hest init)
        (fun acc a ha hp => hmono acc a (List.mem_cons_of_mem e ha) hp)
    · exact foldl_establish f P e xs (f init x) h
        (fun acc a ha hp => hmono acc a (List.mem_cons_of_mem x ha) hp) hest

theorem alookup_eq_some_mem {α : Type} {m : List (String × α)} {k : String} {v : α}
    (h : alookup m k = some v) : (k, v) ∈ m := by
  induction m with
  | nil => simp [alookup] at h
  | cons p rest ih =>
    obtain ⟨kk, vv⟩ := p
    by_cases hk : kk = k
    · subst hk
      rw [show alookup ((kk, vv) :: rest) kk = some vv by simp [alookup]] at h
      injection h with h2
      subst h2
      exact List.mem_cons_self _ _
    · simp only [alookup, if_neg hk] at h
      exact List.mem_cons_of_mem _ (ih h)

theorem alookup_of_mem_nodup {α : Type} {m : List (String × α)} {k : String} {v : α}
    (hnod : (m.map Prod.fst).Nodup) (h : (k, v) ∈ m) : alookup m k = some v := by
  induction m with
  | nil => cases h
  | cons p rest ih =>
    obtain ⟨kk, vv⟩ := p
    simp only [List.map_cons, List.nodup_cons] at hnod
    rcases List.mem_cons.mp h with heq | hmem
    · injection heq with h1 h2
      subst h1; subst h2
      simp [alookup]
    · by_cases hk : kk = k
      · subst hk
        exact absurd (List.mem_map_of_mem Prod.fst hmem) hnod.1
      · simp only [alookup, if_neg hk]
        exact ih hnod.2 hmem

theorem keys_addNbr (g : GraphT) (a b : String) :
    (addNbr g a b).map Prod.fst =
      if a ∈ g.map Prod.fst then g.map Prod.fst else g.map Prod.fst ++ [a] := by
  induction g with
  | nil => simp [addNbr]
  | cons p rest ih =>
    obtain ⟨k, v⟩ := p
    by_cases hk : k = a
    · subst hk; simp [addNbr]
    · have hk2 : ¬a = k := fun h => hk h.symm
      simp only [addNbr, if_neg hk, List.map_cons, ih, List.mem_cons]
      by_cases hmem : a ∈ rest.map Prod.fst
      · simp [hmem, hk2]
      · simp [hmem, hk2]

/-- The graph's key list has no duplicates (Python `dict` keys). -/
def KeysNodup (g : GraphT) : Prop := (g.map Prod.fst).Nodup

theorem keysNodup_addNbr {g : GraphT} (a b : String) (h : KeysNodup g) :
    KeysNodup (addNbr g a b) := by
  unfold KeysNodup at h ⊢
  rw [keys_addNbr]
  by_cases hmem : a ∈ g.map Prod.fst
  · simpa [hmem] using h
  · simp [hmem, h, List.nodup_append]

theorem keysNodup_loadEdgesGraph {g : GraphT} (h : KeysNodup g) (lines : List String) :
    KeysNodup (loadEdgesGraph g lines) := by
  induction lines generalizing g with
  | nil => exact h
  | cons l ls ih =>
    apply ih
    rcases procEdgeLine_eq g l with he | ⟨t1, t2, -, he⟩ <;> rw [he]
    · exact h
    · exact keysNodup_addNbr _ _ (keysNodup_addNbr _ _ h)

theorem connInner_none {reg : List (String × String)} {net1 : String}
    {acc2 : List (String × List String)} {ip2 : String}
    (h : alookup reg ip2 = none) : connInner reg net1 acc2 ip2 = acc2 := by
  unfold connInner
  rw [h]

theorem connInner_some {reg : List (String × String)} {net1 : String}
    {acc2 : List (String × List String)} {ip2 net2 : String}
    (h : alookup reg ip2 = some net2) :
    connInner reg net1 acc2 ip2 =
      if net2 = "" then acc2
      else if net2 = net1 then acc2
      else addNbr (addNbr acc2 net1 net2) net2 net1 := by
  unfold connInner
  rw [h]

theorem connOuter_none {reg : List (String × String)}
    {acc : List (String × List String)} {e : String × List String}
    (h : alookup reg e.1 = none) : connOuter reg acc e = acc := by
  unfold connOuter
  rw [h]

theorem connOuter_some {reg : List (String × String)}
    {acc : List (String × List String)} {e : String × List String} {net1 : String}
    (h : alookup reg e.1 = some net1) :
    connOuter reg acc e =
      if net1 = "" then acc else e.2.foldl (connInner reg net1) acc := by
  unfold connOuter
  rw [h]

theorem adjOf_decomp {g : GraphT} {a b : String} (h : b ∈ adjOf g a) :
    alookup g a = some (adjOf g a) := by
  unfold adjOf at h ⊢
  cases hl : alookup g a with
  | none => rw [hl] at h; simp at h
  | some ns => simp [hl]

theorem mem_adjOf_connInner {reg : List (String × String)} {net1 : String}
    {acc2 : List (String × List String)} {n1 n2 : String} (ip2 : String)
    (h : n2 ∈ adjOf acc2 n1) : n2 ∈ adjOf (connInner reg net1 acc2 ip2) n1 := by
  cases hr : alookup reg ip2 with
  | none => rw [connInner_none hr]; exact h
  | some net2 =>
    rw [connInner_some hr]
    by_cases h1 : net2 = ""
    · rw [if_pos h1]; exact h
    · rw [if_neg h1]
      by_cases h2 : net2 = net1
      · rw [if_pos h2]; exact h
      · rw [if_neg h2]
        exact mem_adjOf_addNbr.mpr (Or.inr (mem_adjOf_addNbr.mpr (Or.inr h)))

theorem mem_adjOf_connOuter {reg : List (String × String)}
    {acc : List (String × List String)} {n1 n2 : String} (e : String × List String)
    (h : n2 ∈ adjOf acc n1) : n2 ∈ adjOf (connOuter reg acc e) n1 := by
  cases hr : alookup reg e.1 with
  | none => rw [connOuter_none hr]; exact h
  | some net1 =>
    rw [connOuter_some hr]
    by_cases h1 : net1 = ""
    · rw [if_pos h1]; exact h
    · rw [if_neg h1]
      exact foldl_invariant _ (fun c => n2 ∈ adjOf c n1) e.2 acc h
        (fun c ip2 _ hp => mem_adjOf_connInner ip2 hp)

theorem mem_buildConnected_iff (reg : List (String × String)) (g : GraphT)
    (hsym : SymmG g) (hnod : KeysNodup g) (hreg : ∀ p ∈ reg, p.2 ≠ "")
    (n1 n2 : String) :
    n2 ∈ adjOf (buildConnected reg g) n1 ↔
      ∃ a b, b ∈ adjOf g a ∧ alookup reg a = some n1 ∧
        alookup reg b = some n2 ∧ n1 ≠ n2 := by
  constructor
  · intro hmem
    refine foldl_invariant (connOuter reg)
      (fun acc => n2 ∈ adjOf acc n1 →
        ∃ a b, b ∈ adjOf g a ∧ alookup reg a = some n1 ∧
          alookup reg b = some n2 ∧ n1 ≠ n2) g [] ?_ ?_ hmem
    · intro hm; simp [adjOf, alookup] at hm
    · rintro acc ⟨ip1, nbrs⟩ he hP hm
      cases hr1 : alookup reg ip1 with
      | none => rw [connOuter_none hr1] at hm; exact hP hm
      | some net1 =>
        rw [connOuter_some hr1] at hm
        by_cases h1 : net1 = ""
        · rw [if_pos h1] at hm; exact hP hm
        · rw [if_neg h1] at hm
          have hadj1 : adjOf g ip1 = nbrs := by
            unfold adjOf
            rw [alookup_of_mem_nodup hnod he]
            rfl
          refine foldl_invariant (connInner reg net1)
            (fun acc2 => n2 ∈ adjOf acc2 n1 →
              ∃ a b, b ∈ adjOf g a ∧ alookup reg a = some n1 ∧
                alookup reg b = some n2 ∧ n1 ≠ n2) nbrs acc hP ?_ hm
          rintro acc2 ip2 hip2 hP2 hm2
          cases hr2 : alookup reg ip2 with
          | none => rw [connInner_none hr2] at hm2; exact hP2 hm2
          | some net2 =>
            rw [connInner_some hr2] at hm2
            by_cases h2 : net2 = ""
            · rw [if_pos h2] at hm2; exact hP2 hm2
            · rw [if_neg h2] at hm2
              by_cases h3 : net2 = net1
              · rw [if_pos h3] at hm2; exact hP2 hm2
              · rw [if_neg h3] at hm2
                rcases mem_adjOf_addNbr.mp hm2 with ⟨rfl, rfl⟩ | hm3
                · refine ⟨ip2, ip1, ?_, hr2, hr1, h3⟩
                  exact hsym ip1 ip2 (hadj1 ▸ hip2)
                · rcases mem_adjOf_addNbr.mp hm3 with ⟨rfl, rfl⟩ | hm4
                  · exact ⟨ip1, ip2, hadj1 ▸ hip2, hr1, hr2, fun hc => h3 hc.symm⟩
                  · exact hP2 hm4
  · rintro ⟨a, b, hb, ha1, hb2, hne⟩
    have hka : alookup g a = some (adjOf g a) := adjOf_decomp hb
    have hea : (a, adjOf g a) ∈ g := alookup_eq_some_mem hka
    have hne1 : n1 ≠ "" := hreg (a, n1) (alookup_eq_some_mem ha1)
    have hne2 : n2 ≠ "" := hreg (b, n2) (alookup_eq_some_mem hb2)
    refine foldl_establish (connOuter reg) (fun acc => n2 ∈ adjOf acc n1)
      (a, adjOf g a) g [] hea
      (fun acc e _ hp => mem_adjOf_connOuter e hp) ?_
    intro acc
    rw [connOuter_some (e := (a, adjOf g a)) ha1, if_neg hne1]
    refine foldl_establish (connInner reg n1) (fun acc2 => n2 ∈ adjOf acc2 n1)
      b (adjOf g a) acc hb (fun acc2 ip2 _ hp => mem_adjOf_connInner ip2 hp) ?_
    intro acc2
    rw [connInner_some hb2, if_neg hne2, if_neg (fun hc : n2 = n1 => hne hc.symm)]
    exact mem_adjOf_addNbr.mpr (Or.inr (mem_adjOf_addNbr.mpr (Or.inl ⟨rfl, rfl⟩)))

/-- C4: after deriving the inter-network adjacency from a registry (no
network name is the empty string, as produced by classification) and a
loaded graph, `n2` is adjacent to `n1` iff some graph edge `(a, b)` has
both endpoints in the registry with `network a = n1`, `network b = n2` and
`n1 ≠ n2`; edges with an endpoint absent from the registry contribute
nothing, and the adjacency is symmetric. -/
theorem inter_network_adjacency (reg : List (String × String)) (lines : List String)
    (hreg : ∀ p ∈ reg, p.2 ≠ "") :
    (∀ n1 n2, n2 ∈ adjOf (buildConnected reg (loadEdgesGraph [] lines)) n1 ↔
      ∃ a b, b ∈ adjOf (loadEdgesGraph [] lines) a ∧ alookup reg a = some n1 ∧
        alookup reg b = some n2 ∧ n1 ≠ n2) ∧
    (∀ n1 n2, n2 ∈ adjOf (buildConnected reg (loadEdgesGraph [] lines)) n1 ↔
      n1 ∈ adjOf (buildConnected reg (loadEdgesGraph [] lines)) n2) := by
  have hsym : SymmG (loadEdgesGraph [] lines) :=
    symmG_loadEdgesGraph (by intro a b h; simp [adjOf, alookup] at h) lines
  have hnod : KeysNodup (loadEdgesGraph [] lines) :=
    keysNodup_loadEdgesGraph (by simp [KeysNodup]) lines
  have hiff := mem_buildConnected_iff reg (loadEdgesGraph [] lines) hsym hnod hreg
  refine ⟨hiff, ?_⟩
  intro n1 n2
  rw [hiff n1 n2, hiff n2 n1]
  constructor
  · rintro ⟨a, b, hb, ha1, hb2, hne⟩
    exact ⟨b, a, hsym a b hb, hb2, ha1, hne.symm⟩
  · rintro ⟨a, b, hb, ha1, hb2, hne⟩
    exact ⟨b, a, hsym a b hb, hb2, ha1, hne.symm⟩

/-- Witness for `inter_network_adjacency` at concrete inputs. -/
theorem inter_network_adjacency_witness :
    "N2" ∈ adjOf (buildConnected [("a", "N1"), ("b", "N2")]
      (loadEdgesGraph [] ["a-b"])) "N1" := by
  refine ((inter_network_adjacency [("a", "N1"), ("b", "N2")] ["a-b"]
    (by decide)).1 "N1" "N2").mpr ?_
  exact ⟨"a", "b", by decide, by decide, by decide, by decide⟩

/-! ## Chain and distance lemmas (for the BFS claims) -/

theorem chainB_cons_cons {g : GraphT} {a b : String} {rest : List String} :
    chainB g (a :: b :: rest) = true ↔ b ∈ adjOf g a ∧ chainB g (b :: rest) = true := by
  simp [chainB]

theorem head_ne_nil {p : List String} {a : String} (h : p.head? = some a) : p ≠ [] := by
  cases p
  · simp at h
  · simp

theorem length_pos_of_head {p : List String} {a : String} (h : p.head? = some a) :
    1 ≤ p.length := by
  cases p
  · simp at h
  · simp

theorem chainB_append_single {g : GraphT} {x y : String} :
    ∀ {p : List String}, chainB g p = true → p.getLast? = some x → y ∈ adjOf g x →
      chainB g (p ++ [y]) = true
  | [], _, hl, _ => by simp at hl
  | [a], _, hl, hy => by
    simp only [List.getLast?_singleton, Option.some.injEq] at hl
    subst hl
    simp [chainB, hy]
  | a :: b :: rest, hc, hl, hy => by
    rw [List.getLast?_cons_cons] at hl
    rw [chainB_cons_cons] at hc
    have ih := chainB_append_single hc.2 hl hy
    simp only [List.cons_append]
    rw [chainB_cons_cons]
    exact ⟨hc.1, by simpa using ih⟩

theorem chainB_cons_of_head {g : GraphT} {x y : String} {p : List String}
    (hc : chainB g p = true) (hh : p.head? = some y) (hx : y ∈ adjOf g x) :
    chainB g (x :: p) = true := by
  cases p with
  | nil => simp at hh
  | cons b rest =>
    simp only [List.head?_cons, Option.some.injEq] at hh
    subst hh
    exact chainB_cons_cons.mpr ⟨hx, hc⟩

theorem pathB_single (g : GraphT) (a : String) : pathB g a a [a] :=
  ⟨rfl, rfl, rfl⟩

theorem pathB_length_pos {g : GraphT} {a b : String} {p : List String}
    (h : pathB g a b p) : 1 ≤ p.length :=
  length_pos_of_head h.2.1

theorem pathB_append_single {g : GraphT} {s x y : String} {p : List String}
    (h : pathB g s x p) (hy : y ∈ adjOf g x) : pathB g s y (p ++ [y]) := by
  obtain ⟨hc, hh, hl⟩ := h
  refine ⟨chainB_append_single hc hl hy, ?_, ?_⟩
  · rw [List.head?_append_of_ne_nil _ (head_ne_nil hh)]
    exact hh
  · rw [show p ++ [y] = p ++ y :: [] from rfl, List.getLast?_append_cons]
    rfl

theorem pathB_cons {g : GraphT} {x y z : String} {q : List String}
    (h : pathB g y z q) (hx : y ∈ adjOf g x) : pathB g x z (x :: q) := by
  obtain ⟨hc, hh, hl⟩ := h
  refine ⟨chainB_cons_of_head hc hh hx, rfl, ?_⟩
  cases q with
  | nil => simp at hh
  | cons b rest =>
    rw [List.getLast?_cons_cons]
    exact hl

theorem pathB_trans {g : GraphT} {s y z : String} :
    ∀ {p q : List String}, pathB g s y p → pathB g y z q →
      ∃ r, pathB g s z r ∧ r.length + 1 = p.length + q.length
  | [], _, hp, _ => absurd rfl (head_ne_nil hp.2.1)
  | [a], q, hp, hq => by
    obtain ⟨-, hh, hl⟩ := hp
    simp only [List.head?_cons, Option.some.injEq] at hh
    simp only [List.getLast?_singleton, Option.some.injEq] at hl
    subst hh
    subst hl
    exact ⟨q, hq, by simp only [List.length_singleton]; omega⟩
  | a :: b :: rest, q, hp, hq => by
    obtain ⟨hc, hh, hl⟩ := hp
    simp only [List.head?_cons, Option.some.injEq] at hh
    subst hh
    rw [chainB_cons_cons] at hc
    rw [List.getLast?_cons_cons] at hl
    obtain ⟨r, hr, hrlen⟩ := pathB_trans (p := b :: rest) ⟨hc.2, rfl, hl⟩ hq
    refine ⟨a :: r, pathB_cons hr hc.1, ?_⟩
    simp only [List.length_cons] at hrlen ⊢
    omega

theorem reach_isDist {g : GraphT} {a b : String} (h : reach g a b) :
    ∃ n, isDist g a b n := by
  classical
  obtain ⟨p, hp⟩ := h
  let S : Set ℕ := {m | ∃ q, pathB g a b q ∧ q.length = m + 1}
  have hne : S.Nonempty :=
    ⟨p.length - 1, p, hp, by have := pathB_length_pos hp; omega⟩
  have hmem := Nat.sInf_mem hne
  refine ⟨sInf S, hmem, ?_⟩
  intro q hq
  have h3 := pathB_length_pos hq
  have h1 : q.length - 1 ∈ S := ⟨q, hq, by omega⟩
  have h2 := Nat.sInf_le h1
  omega

theorem isDist_unique {g : GraphT} {a b : String} {m n : Nat}
    (h1 : isDist g a b m) (h2 : isDist g a b n) : m = n := by
  obtain ⟨⟨p, hp, hl⟩, hm1⟩ := h1
  obtain ⟨⟨q, hq, hl2⟩, hm2⟩ := h2
  have b1 := hm1 q hq
  have b2 := hm2 p hp
  omega

theorem isDist_self (g : GraphT) (a : String) : isDist g a a 0 := by
  refine ⟨⟨[a], pathB_single g a, rfl⟩, ?_⟩
  intro q hq
  exact pathB_length_pos hq

theorem isDist_succ_decomp {g : GraphT} {x z : String} {m : Nat}
    (h : isDist g x z (m + 1)) : ∃ y, y ∈ adjOf g x ∧ isDist g y z m := by
  obtain ⟨⟨p, hp, hl⟩, hmin⟩ := h
  cases p with
  | nil => simp at hl
  | cons a tail =>
    cases tail with
    | nil => simp at hl
    | cons b rest =>
      obtain ⟨hc, hh, hlast⟩ := hp
      simp only [List.head?_cons, Option.some.injEq] at hh
      subst hh
      rw [chainB_cons_cons] at hc
      rw [List.getLast?_cons_cons] at hlast
      have hq : pathB g b z (b :: rest) := ⟨hc.2, rfl, hlast⟩
      refine ⟨b, hc.1, ⟨⟨b :: rest, hq, ?_⟩, ?_⟩⟩
      · simp only [List.length_cons] at hl ⊢
        omega
      · intro q2 hq2
        have := hmin (a :: q2) (pathB_cons hq2 hc.1)
        simp only [List.length_cons] at this
        omega

theorem isDist_zero_eq {g : GraphT} {x z : String} (h : isDist g x z 0) : x = z := by
  obtain ⟨⟨p, hp, hl⟩, -⟩ := h
  cases p with
  | nil => simp at hl
  | cons a tail =>
    cases tail with
    | nil =>
      obtain ⟨-, hh, hlast⟩ := hp
      simp only [List.head?_cons, Option.some.injEq] at hh
      simp only [List.getLast?_singleton, Option.some.injEq] at hlast
      rw [← hh, ← hlast]
    | cons b rest => simp at hl

/-! ## BFS loop invariant -/

theorem alookup_append_single {α : Type} (m : List (String × α)) (k : String) (v : α)
    (y : String) :
    alookup (m ++ [(k, v)]) y =
      match alookup m y with
      | some w => some w
      | none => if k = y then some v else none := by
  induction m with
  | nil => simp [alookup]
  | cons p rest ih =>
    by_cases h : p.1 = y
    · simp [alookup, h]
    · simp only [List.cons_append, alookup, if_neg h]
      exact ih

theorem getAdjD_fst (g : GraphT) (x : String) : (getAdjD g x).1 = adjOf g x := by
  unfold getAdjD adjOf
  cases alookup g x <;> rfl

theorem getAdjD_adjOf (g : GraphT) (x y : String) :
    adjOf (getAdjD g x).2 y = adjOf g y := by
  unfold getAdjD
  cases hl : alookup g x with
  | some ns => rfl
  | none =>
    unfold adjOf
    rw [alookup_append_single]
    cases hy : alookup g y with
    | some w => rfl
    | none =>
      by_cases hxy : x = y
      · subst hxy
        rw [if_pos rfl]
        rfl
      · rw [if_neg hxy]

/-- The loop invariant of the BFS of `find_path`, relative to the graph
`g0` at call time, the query `(src, dst)`, and the current loop state
`(g, visited, queue)`:

* the adjacency function never changes (`defaultdict` reads only add keys
  with empty neighbor sets);
* every queued entry is a nonempty chain of `g0` starting at `src`;
* queue entry lengths are nondecreasing and spread over at most two
  consecutive values;
* every visited node has a distance from `src` smaller than every queued
  entry's edge count;
* `dst` is never marked visited (the destination check precedes marking);
* for every reachable unvisited `z`, some queued entry is a shortest path
  to its own unvisited last node, which lies on a shortest path to `z`. -/
structure BfsInv (g0 : GraphT) (src dst : String) (g : GraphT)
    (visited : List String) (queue : List (List String)) : Prop where
  hadj : ∀ y, adjOf g y = adjOf g0 y
  hq : ∀ p ∈ queue, p ≠ [] ∧ p.head? = some src ∧ chainB g0 p = true
  hsorted : List.Pairwise (fun p q : List String => p.length ≤ q.length) queue
  hspread : ∀ p ∈ queue, ∀ q ∈ queue, q.length ≤ p.length + 1
  hvis : ∀ v ∈ visited, ∀ p ∈ queue, ∃ dv, isDist g0 src v dv ∧ dv + 1 ≤ p.length
  hdst : dst ∉ visited
  hfront : ∀ z, reach g0 src z → z ∉ visited →
    ∃ p ∈ queue, ∃ w dp, p.getLast? = some w ∧ w ∉ visited ∧
      p.length = dp + 1 ∧ isDist g0 src w dp ∧
      ∃ m, isDist g0 w z m ∧ isDist g0 src z (dp + m)

/-- The invariant at loop entry: `visited = set()`, `queue = deque([[src]])`. -/
theorem bfsInv_init (g : GraphT) (src dst : String) :
    BfsInv g src dst g [] [[src]] := by
  refine ⟨fun y => rfl, ?_, ?_, ?_, ?_, ?_, ?_⟩
  · intro p hp
    rw [List.mem_singleton] at hp
    subst hp
    exact ⟨by simp, rfl, rfl⟩
  · simp
  · intro p hp q hq
    rw [List.mem_singleton] at hp hq
    subst hp; subst hq
    omega
  · intro v hv
    simp at hv
  · simp
  · intro z hz _
    obtain ⟨dz, hdz⟩ := reach_isDist hz
    refine ⟨[src], List.mem_singleton.mpr rfl, src, 0, rfl, by simp, rfl,
      isDist_self g src, dz, hdz, ?_⟩
    simpa using hdz

/-- Invariant preservation: dequeuing an already visited node. -/
theorem bfsInv_skip {g0 g : GraphT} {src dst x : String} {visited : List String}
    {path : List String} {rest : List (List String)}
    (inv : BfsInv g0 src dst g visited (path :: rest))
    (hl : path.getLast? = some x) (hxv : x ∈ visited) :
    BfsInv g0 src dst g visited rest := by
  refine ⟨inv.hadj, ?_, ?_, ?_, ?_, inv.hdst, ?_⟩
  · intro p hp
    exact inv.hq p (List.mem_cons_of_mem _ hp)
  · exact (List.pairwise_cons.mp inv.hsorted).2
  · intro p hp q hq
    exact inv.hspread p (List.mem_cons_of_mem _ hp) q (List.mem_cons_of_mem _ hq)
  · intro v hv p hp
    exact inv.hvis v hv p (List.mem_cons_of_mem _ hp)
  · intro z hz hznv
    obtain ⟨w, hw, xw, dw, hwl, hxwnv, hwlen, hxwd, m, hmd, hzd⟩ :=
      inv.hfront z hz hznv
    refine ⟨w, ?_, xw, dw, hwl, hxwnv, hwlen, hxwd, m, hmd, hzd⟩
    rcases List.mem_cons.mp hw with rfl | h2
    · rw [hl] at hwl
      injection hwl with h3
      exact absurd (h3 ▸ hxv) hxwnv
    · exact h2

theorem pairwise_len_le_of_const {l : List (List String)} {n : Nat}
    (h : ∀ p ∈ l, p.length = n) :
    List.Pairwise (fun p q : List String => p.length ≤ q.length) l := by
  induction l with
  | nil => exact List.Pairwise.nil
  | cons a as ih =>
    refine List.Pairwise.cons ?_ (ih fun p hp => h p (List.mem_cons_of_mem a hp))
    intro q hq
    rw [h a (List.mem_cons_self a as), h q (List.mem_cons_of_mem a hq)]

/-- Invariant preservation: expanding an unvisited node `x ≠ dst`
(mark visited, read `self.graph[x]`, enqueue the extended paths). -/
theorem bfsInv_expand {g0 g : GraphT} {src dst x : String} {visited : List String}
    {path : List String} {rest : List (List String)}
    (inv : BfsInv g0 src dst g visited (path :: rest))
    (hl : path.getLast? = some x) (hxv : x ∉ visited) (hxd : x ≠ dst) :
    BfsInv g0 src dst (getAdjD g x).2 (x :: visited)
      (rest ++ ((getAdjD g x).1.filter (fun nb => !(decide (nb ∈ x :: visited)))).map
        (fun nb => path ++ [nb])) := by
  obtain ⟨hpne, hph, hpc⟩ := inv.hq path (List.mem_cons_self _ _)
  have hpx : pathB g0 src x path := ⟨hpc, hph, hl⟩
  have hnbrs : (getAdjD g x).1 = adjOf g0 x := (getAdjD_fst g x).trans (inv.hadj x)
  set newPaths := ((getAdjD g x).1.filter (fun nb => !(decide (nb ∈ x :: visited)))).map
      (fun nb => path ++ [nb]) with hnp
  have hnewlen : ∀ c ∈ newPaths, c.length = path.length + 1 := by
    intro c hc
    rw [hnp] at hc
    obtain ⟨nb, hnb, rfl⟩ := List.mem_map.mp hc
    simp
  have hnewmem : ∀ c ∈ newPaths,
      ∃ nb, nb ∈ adjOf g0 x ∧ nb ∉ x :: visited ∧ c = path ++ [nb] := by
    intro c hc
    rw [hnp] at hc
    obtain ⟨nb, hnb, rfl⟩ := List.mem_map.mp hc
    obtain ⟨hnb1, hnb2⟩ := List.mem_filter.mp hnb
    refine ⟨nb, hnbrs ▸ hnb1, ?_, rfl⟩
    simpa using hnb2
  have hrest_ge : ∀ p ∈ rest, path.length ≤ p.length :=
    (List.pairwise_cons.mp inv.hsorted).1
  have hrest_le : ∀ p ∈ rest, p.length ≤ path.length + 1 := fun p hp =>
    inv.hspread path (List.mem_cons_self _ _) p (List.mem_cons_of_mem _ hp)
  obtain ⟨dx0, hdx0⟩ := reach_isDist ⟨path, hpx⟩
  have hdx0_le : dx0 + 1 ≤ path.length := hdx0.2 path hpx
  refine ⟨?_, ?_, ?_, ?_, ?_, ?_, ?_⟩
  · intro y
    rw [getAdjD_adjOf]
    exact inv.hadj y
  · intro p hp
    rcases List.mem_append.mp hp with hp | hp
    · exact inv.hq p (List.mem_cons_of_mem _ hp)
    · obtain ⟨nb, hnb1, hnb2, rfl⟩ := hnewmem p hp
      have hap := pathB_append_single hpx hnb1
      exact ⟨by simp, hap.2.1, hap.1⟩
  · rw [List.pairwise_append]
    refine ⟨(List.pairwise_cons.mp inv.hsorted).2, pairwise_len_le_of_const hnewlen, ?_⟩
    intro p1 hp1 p2 hp2
    rw [hnewlen p2 hp2]
    have := hrest_le p1 hp1
    omega
  · intro p1 hp1 p2 hp2
    have h1 : path.length ≤ p1.length := by
      rcases List.mem_append.mp hp1 with h | h
      · exact hrest_ge p1 h
      · rw [hnewlen p1 h]; omega
    have h2 : p2.length ≤ path.length + 1 := by
      rcases List.mem_append.mp hp2 with h | h
      · exact hrest_le p2 h
      · rw [hnewlen p2 h]
    omega
  · intro v hv p hp
    have hplen : path.length ≤ p.length := by
      rcases List.mem_append.mp hp with h | h
      · exact hrest_ge p h
      · rw [hnewlen p h]; omega
    rcases List.mem_cons.mp hv with rfl | hv2
    · exact ⟨dx0, hdx0, by omega⟩
    · obtain ⟨dv, hdv, hdvle⟩ := inv.hvis v hv2 path (List.mem_cons_self _ _)
      exact ⟨dv, hdv, by omega⟩
  · intro hmem
    rcases List.mem_cons.mp hmem with h | h
    · exact hxd h.symm
    · exact inv.hdst h
  · intro z hz hznv
    have hzx : z ≠ x := fun h => hznv (h ▸ List.mem_cons_self x visited)
    have hznv0 : z ∉ visited := fun h => hznv (List.mem_cons_of_mem _ h)
    obtain ⟨w, hw, xw, dw, hwl, hxwnv, hwlen, hxwd, m, hmd, hzd⟩ :=
      inv.hfront z hz hznv0
    by_cases hwx : xw = x
    · rw [hwx] at hwl hxwnv hxwd hmd
      have hwge : path.length ≤ w.length := by
        rcases List.mem_cons.mp hw with rfl | h2
        · exact le_refl _
        · exact hrest_ge w h2
      have hple : dw + 1 ≤ path.length := hxwd.2 path hpx
      have hpeq : path.length = dw + 1 := by omega
      have hm0 : m ≠ 0 := by
        intro h0
        subst h0
        exact hzx (isDist_zero_eq hmd).symm
      obtain ⟨m', rfl⟩ : ∃ m', m = m' + 1 := ⟨m - 1, by omega⟩
      obtain ⟨y, hyadj, hyd⟩ := isDist_succ_decomp hmd
      have hpy : pathB g0 src y (path ++ [y]) := pathB_append_single hpx hyadj
      obtain ⟨dy, hdy⟩ := reach_isDist ⟨path ++ [y], hpy⟩
      have hdyle : dy + 1 ≤ (path ++ [y]).length := hdy.2 _ hpy
      have hlen_py : (path ++ [y]).length = path.length + 1 := by simp
      obtain ⟨qy, hqy, hqylen⟩ := hdy.1
      obtain ⟨qz, hqz, hqzlen⟩ := hyd.1
      obtain ⟨r, hr, hrlen⟩ := pathB_trans hqy hqz
      have hlow := hzd.2 r hr
      have hdyeq : dy = dw + 1 := by omega
      have hynv : y ∉ visited := by
        intro hyv
        obtain ⟨dv, hdv, hdvle⟩ := inv.hvis y hyv path (List.mem_cons_self _ _)
        have := isDist_unique hdv hdy
        omega
      have hyx : y ≠ x := by
        intro h
        subst h
        have := isDist_unique hdy hxwd
        omega
      refine ⟨path ++ [y], ?_, y, dw + 1, hpy.2.2, ?_, ?_, hdyeq ▸ hdy, m', hyd, ?_⟩
      · rw [hnp]
        apply List.mem_append_right
        apply List.mem_map_of_mem
        apply List.mem_filter.mpr
        refine ⟨?_, ?_⟩
        · rw [hnbrs]
          exact hyadj
        · simp [hyx, hynv]
      · intro hmem
        rcases List.mem_cons.mp hmem with h | h
        · exact hyx h
        · exact hynv h
      · rw [hlen_py, hpeq]
      · have harith : dw + (m' + 1) = (dw + 1) + m' := by omega
        exact harith ▸ hzd
    · have hwr : w ∈ rest := by
        rcases List.mem_cons.mp hw with rfl | h2
        · rw [hl] at hwl
          injection hwl with h3
          exact absurd h3.symm hwx
        · exact h2
      refine ⟨w, List.mem_append_left _ hwr, xw, dw, hwl, ?_, hwlen, hxwd, m, hmd, hzd⟩
      intro hmem
      rcases List.mem_cons.mp hmem with h | h
      · exact hwx h
      · exact hxwnv h

/-- At an empty queue the loop exits with `None`; under the invariant the
destination is then unreachable. -/
theorem bfsInv_empty {g0 g : GraphT} {src dst : String} {visited : List String}
    (inv : BfsInv g0 src dst g visited []) : ¬ reach g0 src dst := by
  intro hr
  obtain ⟨p, hp, -⟩ := inv.hfront dst hr inv.hdst
  simp at hp

/-- When the dequeued entry ends at `dst` the loop returns it; under the
invariant it is a shortest `src`-`dst` path. -/
theorem bfsInv_found {g0 g : GraphT} {src dst : String} {visited : List String}
    {path : List String} {rest : List (List String)}
    (inv : BfsInv g0 src dst g visited (path :: rest))
    (hl : path.getLast? = some dst) :
    pathB g0 src dst path ∧ ∀ q, pathB g0 src dst q → path.length ≤ q.length := by
  obtain ⟨hne, hh, hc⟩ := inv.hq path (List.mem_cons_self _ _)
  have hpath : pathB g0 src dst path := ⟨hc, hh, hl⟩
  refine ⟨hpath, ?_⟩
  intro q hq
  obtain ⟨w, hw, xw, dw, hwl, hxwnv, hwlen, hxwd, m, hmd, hzd⟩ :=
    inv.hfront dst ⟨path, hpath⟩ inv.hdst
  have h1 : path.length ≤ w.length := by
    rcases List.mem_cons.mp hw with rfl | hw2
    · exact le_refl _
    · exact (List.pairwise_cons.mp inv.hsorted).1 w hw2
  have h2 := hzd.2 q hq
  omega

theorem getLast?_some_of_ne_nil : ∀ {p : List String}, p ≠ [] → ∃ v, p.getLast? = some v
  | [], h => absurd rfl h
  | [a], _ => ⟨a, rfl⟩
  | a :: b :: t, _ => by
    rw [List.getLast?_cons_cons]
    exact getLast?_some_of_ne_nil (by simp)

/-- Soundness and minimality of the BFS loop: under the invariant, a `None`
result means `dst` is unreachable, and a returned path is a shortest
`src`-`dst` path of the call-time graph. -/
theorem bfsRun_correct (g0 : GraphT) (src dst : String) :
    ∀ (fuel : Nat) (g : GraphT) (visited : List String) (queue : List (List String))
      (res : Option (List String)) (gfin : GraphT),
      BfsInv g0 src dst g visited queue →
      bfsRun dst fuel g visited queue = some (res, gfin) →
      (res = none → ¬ reach g0 src dst) ∧
      (∀ p, res = some p → pathB g0 src dst p ∧
        ∀ q, pathB g0 src dst q → p.length ≤ q.length) := by
  intro fuel
  induction fuel with
  | zero =>
    intro g visited queue res gfin _ heq
    simp [bfsRun] at heq
  | succ n ih =>
    intro g visited queue res gfin inv heq
    cases queue with
    | nil =>
      simp only [bfsRun, Option.some.injEq, Prod.mk.injEq] at heq
      obtain ⟨h1, h2⟩ := heq
      subst h1
      refine ⟨fun _ => bfsInv_empty inv, ?_⟩
      intro p hp
      exact Option.noConfusion hp
    | cons path rest =>
      obtain ⟨hpne, hph, hpc⟩ := inv.hq path (List.mem_cons_self _ _)
      obtain ⟨x, hx⟩ := getLast?_some_of_ne_nil hpne
      simp only [bfsRun, hx, Option.getD_some] at heq
      by_cases hxd : x = dst
      · rw [if_pos hxd] at heq
        simp only [Option.some.injEq, Prod.mk.injEq] at heq
        obtain ⟨h1, h2⟩ := heq
        subst h1
        rw [hxd] at hx
        have hfound := bfsInv_found inv hx
        refine ⟨fun h => Option.noConfusion h, ?_⟩
        intro p hp
        injection hp with hp2
        subst hp2
        exact hfound
      · rw [if_neg hxd] at heq
        by_cases hxv : x ∈ visited
        · rw [if_pos hxv] at heq
          exact ih g visited rest res gfin (bfsInv_skip inv hx hxv) heq
        · rw [if_neg hxv] at heq
          exact ih _ _ _ res gfin (bfsInv_expand inv hx hxv hxd) heq

/-! ## BFS termination (fuel sufficiency) -/

/-- Total size of the neighbor sets of the not-yet-visited keys: the part
of the graph the BFS can still expand. -/
def remAdj (g : GraphT) (visited : List String) : Nat :=
  ((g.filter (fun e => !(decide (e.1 ∈ visited)))).map (fun e => e.2.length)).sum

theorem remAdj_cons (e : String × List String) (g : GraphT) (visited : List String) :
    remAdj (e :: g) visited =
      (if e.1 ∈ visited then 0 else e.2.length) + remAdj g visited := by
  unfold remAdj
  by_cases h : e.1 ∈ visited
  · simp [h]
  · simp [h]

theorem remAdj_mono (g : GraphT) (x : String) (visited : List String) :
    remAdj g (x :: visited) ≤ remAdj g visited := by
  induction g with
  | nil => exact le_refl _
  | cons e rest ih =>
    rw [remAdj_cons, remAdj_cons]
    have hif : (if e.1 ∈ x :: visited then 0 else e.2.length) ≤
        (if e.1 ∈ visited then 0 else e.2.length) := by
      by_cases h : e.1 ∈ visited
      · simp [h, List.mem_cons_of_mem]
      · by_cases h2 : e.1 ∈ x :: visited
        · simp [h, h2]
        · simp [h, h2]
    omega

theorem remAdj_expand {g : GraphT} {x : String} {visited : List String}
    {ns : List String} (hxv : x ∉ visited) (hsome : alookup g x = some ns) :
    remAdj g (x :: visited) + ns.length ≤ remAdj g visited := by
  induction g with
  | nil => simp [alookup] at hsome
  | cons e rest ih =>
    obtain ⟨k, v⟩ := e
    rw [remAdj_cons, remAdj_cons]
    by_cases hk : k = x
    · subst hk
      rw [show alookup ((k, v) :: rest) k = some v by simp [alookup]] at hsome
      injection hsome with h2
      subst h2
      have hmono := remAdj_mono rest k visited
      simp only [List.mem_cons, eq_self_iff_true, true_or, if_pos, hxv, if_neg]
      simp [hxv]
      omega
    · have hsome2 : alookup rest x = some ns := by
        rw [show alookup ((k, v) :: rest) x = alookup rest x by simp [alookup, hk]] at hsome
        exact hsome
      have hrec := ih hsome2
      simp only [List.mem_cons, hk, false_or]
      omega

theorem remAdj_append_empty (g : GraphT) (x : String) (w : List String) :
    remAdj (g ++ [(x, [])]) w = remAdj g w := by
  induction g with
  | nil =>
    show remAdj [(x, [])] w = remAdj [] w
    rw [remAdj_cons]
    simp [remAdj]
  | cons e rest ih =>
    rw [List.cons_append, remAdj_cons, remAdj_cons, ih]

theorem remAdj_nil_visited (g : GraphT) : remAdj g [] = sumAdj g := by
  induction g with
  | nil => rfl
  | cons e rest ih =>
    rw [remAdj_cons, ih]
    simp [sumAdj]

/-- The BFS loop halts within `queue size + unexpanded adjacency + 1`
steps: every iteration either drains the queue or permanently marks a node
visited, removing its adjacency from the expandable budget. -/
theorem bfsRun_terminates (dst : String) :
    ∀ (fuel : Nat) (g : GraphT) (visited : List String) (queue : List (List String)),
      queue.length + remAdj g visited < fuel →
      (bfsRun dst fuel g visited queue).isSome = true := by
  intro fuel
  induction fuel with
  | zero =>
    intro g visited queue h
    omega
  | succ n ih =>
    intro g visited queue h
    cases queue with
    | nil => simp [bfsRun]
    | cons path rest =>
      simp only [bfsRun]
      by_cases hxd : path.getLast?.getD "" = dst
      · rw [if_pos hxd]
        simp
      · rw [if_neg hxd]
        by_cases hxv : path.getLast?.getD "" ∈ visited
        · rw [if_pos hxv]
          apply ih
          simp only [List.length_cons] at h
          omega
        · rw [if_neg hxv]
          apply ih
          simp only [List.length_cons] at h
          cases hl : alookup g (path.getLast?.getD "") with
          | some ns =>
            have h1 : (getAdjD g (path.getLast?.getD "")).1 = ns := by
              unfold getAdjD
              rw [hl]
            have h2 : (getAdjD g (path.getLast?.getD "")).2 = g := by
              unfold getAdjD
              rw [hl]
            rw [h1, h2]
            have h3 := remAdj_expand hxv hl
            have h4 := List.length_filter_le
              (fun nb => !(decide (nb ∈ path.getLast?.getD "" :: visited))) ns
            rw [List.length_append, List.length_map]
            omega
          | none =>
            have h1 : (getAdjD g (path.getLast?.getD "")).1 = [] := by
              unfold getAdjD
              rw [hl]
            have h2 : (getAdjD g (path.getLast?.getD "")).2 =
                g ++ [(path.getLast?.getD "", [])] := by
              unfold getAdjD
              rw [hl]
            rw [h1, h2]
            simp only [List.filter_nil, List.map_nil, List.append_nil]
            rw [remAdj_append_empty]
            have := remAdj_mono g (path.getLast?.getD "") visited
            omega

/-! ## Claims C1, C2, C9 -/

/-- C9: for every graph state and every query, the BFS loop of `find_path`
terminates within the `bfsFuel` bound: the visited-set discipline expands
each node at most once, so the loop drains its queue. -/
theorem find_path_terminates (g : GraphT) (src dst : String) :
    (bfsRun dst (bfsFuel g) g [] [[src]]).isSome = true := by
  apply bfsRun_terminates
  rw [remAdj_nil_visited]
  unfold bfsFuel
  simp only [List.length_singleton]
  omega

/-- C1: for every graph state and every pair `(src, dst)` with `dst`
reachable from `src`, `find_path` returns a path that starts at `src`,
ends at `dst`, whose consecutive pairs are edges of the graph, and whose
edge count `p.length - 1` is the graph-theoretic shortest distance. -/
theorem find_path_shortest (g : GraphT) (src dst : String) (h : reach g src dst) :
    ∃ p, (find_path g src dst).1 = some p ∧ pathB g src dst p ∧
      isDist g src dst (p.length - 1) ∧
      ∀ q, pathB g src dst q → p.length ≤ q.length := by
  have hterm := find_path_terminates g src dst
  obtain ⟨⟨res, gfin⟩, heq⟩ := Option.isSome_iff_exists.mp hterm
  have hcor := bfsRun_correct g src dst (bfsFuel g) g [] [[src]] res gfin
    (bfsInv_init g src dst) heq
  cases res with
  | none => exact absurd h (hcor.1 rfl)
  | some p =>
    obtain ⟨hp, hmin⟩ := hcor.2 p rfl
    have hlen := pathB_length_pos hp
    refine ⟨p, ?_, hp, ⟨⟨p, hp, by omega⟩, ?_⟩, hmin⟩
    · unfold find_path
      rw [heq]
    · intro q hq
      have := hmin q hq
      omega

/-- Witness for `find_path_shortest` at a concrete graph and query. -/
theorem find_path_shortest_witness :
    ∃ p, (find_path (loadEdgesGraph [] ["a-b", "b-c"]) "a" "c").1 = some p ∧
      pathB (loadEdgesGraph [] ["a-b", "b-c"]) "a" "c" p ∧
      isDist (loadEdgesGraph [] ["a-b", "b-c"]) "a" "c" (p.length - 1) ∧
      ∀ q, pathB (loadEdgesGraph [] ["a-b", "b-c"]) "a" "c" q → p.length ≤ q.length :=
  find_path_shortest _ "a" "c" ⟨["a", "b", "c"], by decide⟩

/-- C2, counterexample: with the empty graph and `src = dst = "a"`, the
source has no recorded neighbors, yet `find_path` returns `["a"]` rather
than the claimed "not found". -/
theorem find_path_not_found_counterexample :
    adjOf ([] : GraphT) "a" = [] ∧ (find_path [] "a" "a").1 = some ["a"] := by
  exact ⟨rfl, by rw [find_path_refl]⟩

/-- C2 (amended): if `dst` is unreachable from `src`, `find_path` returns
`None`; in particular it does so when `src ≠ dst` and `src` has no
recorded neighbors (the `src = dst` query returns `[src]` even without
neighbors, so that case is excluded). -/
theorem find_path_not_found (g : GraphT) (src dst : String) :
    (¬ reach g src dst → (find_path g src dst).1 = none) ∧
    (adjOf g src = [] → src ≠ dst → (find_path g src dst).1 = none) := by
  have hterm := find_path_terminates g src dst
  obtain ⟨⟨res, gfin⟩, heq⟩ := Option.isSome_iff_exists.mp hterm
  have hcor := bfsRun_correct g src dst (bfsFuel g) g [] [[src]] res gfin
    (bfsInv_init g src dst) heq
  have hfp : (find_path g src dst).1 = res := by
    unfold find_path
    rw [heq]
  have hmain : ¬ reach g src dst → (find_path g src dst).1 = none := by
    intro hnr
    cases res with
    | none => rw [hfp]
    | some p =>
      obtain ⟨hp, -⟩ := hcor.2 p rfl
      exact absurd ⟨p, hp⟩ hnr
  refine ⟨hmain, fun hadj hne => hmain ?_⟩
  rintro ⟨p, hc, hh, hl⟩
  cases p with
  | nil => simp at hh
  | cons a t =>
    simp only [List.head?_cons, Option.some.injEq] at hh
    cases t with
    | nil =>
      simp only [List.getLast?_singleton, Option.some.injEq] at hl
      exact hne (hh.symm.trans hl)
    | cons b t2 =>
      obtain ⟨h1, -⟩ := chainB_cons_cons.mp hc
      rw [hh, hadj] at h1
      simp at h1

/-- Witness for `find_path_not_found`, discharging both conjuncts'
hypotheses at concrete inputs: an unreachable query on the empty graph and
a query from a node with no recorded neighbors. -/
theorem find_path_not_found_witness :
    (find_path ([] : GraphT) "a" "b").1 = none ∧
    (find_path [("b", ["c"]), ("c", ["b"])] "a" "b").1 = none := by
  constructor
  · refine (find_path_not_found [] "a" "b").1 ?_
    rintro ⟨p, hc, hh, hl⟩
    cases p with
    | nil => simp at hh
    | cons a t =>
      simp only [List.head?_cons, Option.some.injEq] at hh
      cases t with
      | nil =>
        simp only [List.getLast?_singleton, Option.some.injEq] at hl
        exact absurd (hh.symm.trans hl) (by decide)
      | cons b t2 =>
        obtain ⟨h1, -⟩ := chainB_cons_cons.mp hc
        simp [adjOf, alookup] at h1
  · exact (find_path_not_found _ "a" "b").2 (by decide) (by decide)

/-- Witness for `find_path_frame_effect` at concrete inputs. -/
theorem find_path_frame_effect_witness :
    alookup ([("a", ["b"]), ("b", ["a"])] : GraphT) "c" = none ∧
    find_path [("a", ["b"]), ("b", ["a"])] "c" "a" =
      (none, [("a", ["b"]), ("b", ["a"]), ("c", [])]) :=
  ⟨by decide,
    (find_path_frame_effect [("a", ["b"]), ("b", ["a"])] "c" "a" (by decide) (by decide)).1⟩

end Hopper
